import Mathlib

/-!
Verification of the Hamiltonian-factory subsystem (`fqe_decorators.py`).

The development shallowly embeds the source functions `build_hamiltonian`,
`transform_to_spin_broken`, `split_openfermion_tensor`, `fermionops_tomatrix`,
`process_rank2_matrix` and `check_diagonal_coulomb`.  Complex floating-point
scalars are modelled as pairs of rationals; the `numpy.allclose` tolerance is
modelled as an absolute bound on the squared modulus of the difference (the
relative part `rtol * |b|` of numpy's bound involves a square root and is
omitted; no verified property depends on the tolerance's exact value).
External collaborators that are not part of the source under inspection
(`normal_ordered`, `largest_operator_index`, `validate_tuple`, the
representation constructors) are treated as stated in the specification:
`normal_ordered` is an explicit function parameter of the factory, the others
are modelled from the spec's contracts.
-/

set_option synthInstance.maxSize 512

namespace Fqe

/-- Complex scalar with rational real and imaginary parts, modelling the
`numpy.complex128` coefficients of the source. -/
structure Cq where
  re : ℚ
  im : ℚ
deriving DecidableEq, Repr

/-- The zero coefficient `0. + 0.j`. -/
def czero : Cq := ⟨0, 0⟩

/-- Complex addition. -/
def cadd (a b : Cq) : Cq := ⟨a.re + b.re, a.im + b.im⟩

/-- Complex subtraction. -/
def csub (a b : Cq) : Cq := ⟨a.re - b.re, a.im - b.im⟩

/-- Complex conjugation. -/
def cconj (a : Cq) : Cq := ⟨a.re, -a.im⟩

/-- Squared modulus. -/
def cnormSq (a : Cq) : ℚ := a.re * a.re + a.im * a.im

/-- Squared absolute tolerance used to model `numpy.allclose`
(numpy's default `atol` is `1e-8`; we compare squared moduli against
`atol ^ 2` to stay inside rational arithmetic). -/
def tolSq : ℚ := (1 / 100000000) ^ 2

/-- Element-wise closeness check modelling `numpy.isclose`/`allclose` on one
complex entry: the squared modulus of the difference is within `tolSq`. -/
def cclose (a b : Cq) : Bool := decide (cnormSq (csub a b) ≤ tolSq)

/-- One operator factor of a term: `(orbital index, is_creation)`, exactly the
pairs OpenFermion iterates over. -/
abbrev FactorT := ℕ × Bool

/-- An ordered operator string (one key of `FermionOperator.terms`). -/
abbrev Term := List FactorT

/-- A `FermionOperator`: its `terms` dict, modelled as an insertion-ordered
association list from operator strings to coefficients. -/
abbrev FOp := List (Term × Cq)

/-- Coefficient accumulation for `FermionOperator` addition of a single term
(`op += FermionOperator(t, c)`): merge into an existing key or append. -/
def addTerm (e : FOp) (t : Term) (c : Cq) : FOp :=
  if e.any (fun p => p.1 = t) then
    e.map (fun p => if p.1 = t then (p.1, cadd p.2 c) else p)
  else
    e ++ [(t, c)]

/-- Total coefficient an expression assigns to an operator string. -/
def coeffOf (e : FOp) (t : Term) : Cq :=
  e.foldl (fun a p => if p.1 = t then cadd a p.2 else a) czero

/-- Adjoint of one operator string: reverse the factors and flip every
creation/annihilation dagger. -/
def adjointTerm (t : Term) : Term :=
  (t.map (fun f => (f.1, !f.2))).reverse

/-- Adjoint (hermitian conjugate) of an expression. -/
def adjointOp (e : FOp) : FOp :=
  e.map (fun p => (adjointTerm p.1, cconj p.2))

/-- Coefficient-wise equality of two expressions over the union of their
keys. -/
def opEquiv (e1 e2 : FOp) : Bool :=
  (e1 ++ e2).all (fun p => decide (coeffOf e1 p.1 = coeffOf e2 p.1))

/-- Modelled from the spec: `is_hermitian` (OpenFermion collaborator, not in
`src/`).  The operator-algebra library "must supply Hermiticity testing"; it
is modelled as coefficient-wise equality of the expression with its hermitian
conjugate. -/
def is_hermitian (e : FOp) : Bool := opEquiv e (adjointOp e)

/-- Modelled from the spec: `largest_operator_index` (from
`fqe.openfermion_utils`, not in `src/`).  It returns the largest even
(alpha) and largest odd (beta) orbital index referenced anywhere in the
expression.  The spec fixes the derived block counts
`(max_even_index//2 + 1, max_odd_index//2 + 1)` with `0` when no index of the
given parity is present; the defaults `(-2, -1)` realize exactly that `0`
under the floor-division arithmetic the source applies to the returns. -/
def largest_operator_index (e : FOp) : ℤ × ℤ :=
  e.foldl
    (fun acc p =>
      p.1.foldl
        (fun a f =>
          if f.1 % 2 = 0 then (max a.1 (f.1 : ℤ), a.2)
          else (a.1, max a.2 (f.1 : ℤ)))
        acc)
    (-2, -1)

/-- The source's error taxonomy, one constructor per distinct `raise`
site reachable in the embedded code.  The bare `ValueError` of
`process_rank2_matrix` (raised after printing its diagnostics) carries no
data, which `nonHermitianBare` mirrors. -/
inductive BuildErr where
  | assertNotHermitian
  | invalidRank
  | dimAlpha
  | dimBeta
  | oddRankOp
  | orderingCre
  | orderingAnn
  | nonHermitianBare
deriving DecidableEq, Repr

/-- Whether an error is one of the two canonical-ordering failures of
`fermionops_tomatrix`. -/
def BuildErr.isOrdering : BuildErr → Bool
  | .orderingCre => true
  | .orderingAnn => true
  | _ => false

/-- Whether an error is one of the two explicit-orbital-count validation
failures of `fermionops_tomatrix`. -/
def BuildErr.isDimension : BuildErr → Bool
  | .dimAlpha => true
  | .dimBeta => true
  | _ => false

/-- Factor map of `transform_to_spin_broken` (lines 115-125): an odd (beta)
orbital index has its creation/annihilation role flipped, an even (alpha)
index keeps it.  The source realizes this by re-printing the factor with or
without a dagger and re-parsing the string. -/
def spin_broken_factor (f : FactorT) : FactorT :=
  if f.1 % 2 = 1 then (f.1, !f.2) else (f.1, f.2)

/-- Embedding of `transform_to_spin_broken` (lines 108-127): every term is
re-emitted with `spin_broken_factor` applied to each factor and the same
coefficient, accumulated into a fresh expression with `+=`. -/
def transform_to_spin_broken (e : FOp) : FOp :=
  e.foldl (fun acc p => addTerm acc (p.1.map spin_broken_factor) p.2) []

/-- Rank of a single term: its number of factors (`many_body_order` of a
one-term operator). -/
def termRank (t : Term) : ℕ := t.length

/-- `many_body_order` of an expression: the largest number of factors over
its terms. -/
def many_body_order (e : FOp) : ℕ :=
  e.foldl (fun m p => max m p.1.length) 0

/-- Dict update of `split_openfermion_tensor` (lines 156-159):
`split[rank] = term` on first occurrence, `split[rank] += term` after. -/
def addRank (s : List (ℕ × FOp)) (rank : ℕ) (t : Term) (c : Cq) :
    List (ℕ × FOp) :=
  if s.any (fun p => p.1 = rank) then
    s.map (fun p => if p.1 = rank then (p.1, addTerm p.2 t c) else p)
  else
    s ++ [(rank, [(t, c)])]

/-- Loop body of `split_openfermion_tensor`, folding over the terms with the
accumulated per-rank dict and scalar offset. -/
def splitGo : FOp → List (ℕ × FOp) → Cq → Except BuildErr (List (ℕ × FOp) × Cq)
  | [], s, e => .ok (s, e)
  | (t, c) :: rest, s, e =>
    if termRank t % 2 = 1 then .error .invalidRank
    else if termRank t = 0 then splitGo rest s (cadd e c)
    else splitGo rest (addRank s (termRank t) t c) e

/-- Embedding of `split_openfermion_tensor` (lines 130-161): partition an
expression by rank, rejecting odd ranks and accumulating the rank-0
coefficients into the scalar offset `e_0` (initialised `0.+0.j`). -/
def split_openfermion_tensor (ops : FOp) :
    Except BuildErr (List (ℕ × FOp) × Cq) :=
  splitGo ops [] czero

/-- Dense tensors are addressed by lists of blocked indices; entries are
accumulated with `+=`, so the model is a total map from coordinates to the
accumulated coefficient. -/
abbrev Tensor := List ℕ → Cq

/-- The all-zero tensor (`numpy.zeros`). -/
def zeroTensor : Tensor := fun _ => czero

/-- `tensor[tuple(index_mask)] += c`. -/
def tupdate (t : Tensor) (ix : List ℕ) (c : Cq) : Tensor :=
  fun j => if j = ix then cadd (t j) c else t j

/-- Blocked dense index of an orbital index (lines 208-211): odd (beta)
indices map to `(index - 1) // 2 + ablk`, even (alpha) to `index // 2`. -/
def blocked_index (idx ablk : ℕ) : ℕ :=
  if idx % 2 = 1 then (idx - 1) / 2 + ablk else idx / 2

/-- Per-term loop of `fermionops_tomatrix` (lines 196-213), carrying the
running position `i`: the first `rank // 2` factors must be creation
operators and the rest annihilation operators, and each factor is mapped to
its blocked coordinate.  The source reads `term[i]` for `i < rank`; on the
builder's single-rank input every term has exactly `rank` factors, which the
direct iteration over the factor list realizes. -/
def term_index_mask : Term → ℕ → ℕ → ℕ → Except BuildErr (List ℕ)
  | [], _, _, _ => .ok []
  | f :: rest, i, half, ablk =>
    if i < half then
      if !f.2 then .error .orderingCre
      else
        match term_index_mask rest (i + 1) half ablk with
        | .error e => .error e
        | .ok m => .ok (blocked_index f.1 ablk :: m)
    else if f.2 then .error .orderingAnn
    else
      match term_index_mask rest (i + 1) half ablk with
      | .error e => .error e
      | .ok m => .ok (blocked_index f.1 ablk :: m)

/-- Terms loop of `fermionops_tomatrix` (lines 194-215): accumulate each
term's coefficient at its blocked coordinate tuple. -/
def tomatrixGo : FOp → ℕ → ℕ → Tensor → Except BuildErr Tensor
  | [], _, _, tensor => .ok tensor
  | (t, c) :: rest, half, ablk, tensor =>
    match term_index_mask t 0 half ablk with
    | .error e => .error e
    | .ok mask => tomatrixGo rest half ablk (tupdate tensor mask c)

/-- Block-dimension determination of `fermionops_tomatrix` (lines 167-180):
an explicit non-zero `norb` is validated against the required alpha block
count `ablk // 2 + 1` and beta block count `(bblk - 1) // 2 + 1` and yields
`dim = 2 * norb`; a zero `norb` yields the inferred
`dim = max(2 * ablk, 2 * bblk)`. -/
def tomatrix_dim (ops : FOp) (norb : ℕ) : Except BuildErr ℕ :=
  let A := largest_operator_index ops
  let ablk0 : ℤ := A.1.fdiv 2 + 1
  let bblk0 : ℤ := (A.2 - 1).fdiv 2 + 1
  if norb ≠ 0 then
    if (norb : ℤ) < ablk0 then .error .dimAlpha
    else if (norb : ℤ) < bblk0 then .error .dimBeta
    else .ok (2 * norb)
  else .ok (max (2 * ablk0.toNat) (2 * bblk0.toNat))

/-- Embedding of `fermionops_tomatrix` (lines 164-217): determine the block
dimension (validating an explicit `norb` against the required alpha and beta
block counts), reject odd ranks, and fill the dense rank-`rank` tensor. -/
def fermionops_tomatrix (ops : FOp) (norb : ℕ) : Except BuildErr Tensor :=
  match tomatrix_dim ops norb with
  | .error e => .error e
  | .ok dim =>
    let ablk := dim / 2
    let rank := many_body_order ops
    if rank % 2 = 1 then .error .oddRankOp
    else tomatrixGo ops (rank / 2) ablk zeroTensor

/-- Modelled from the spec: the specialized representation classes
(`Diagonal`, `Restricted`, `GSOHamiltonian`, `SSOHamiltonian`,
`DiagonalCoulomb`, `SparseHamiltonian`, `General`) are external collaborators
"each an immutable value constructed from one or more dense tensors plus a
scalar offset and a number-conservation flag"; they are modelled as opaque
tagged records of their construction arguments.  `DiagonalCoulomb` receives
no `conserve_number` argument at its call site (line 93). -/
inductive Ham where
  | Sparse (norb : ℕ) (ops : FOp) (conserve_number : Bool) (e_0 : Cq)
  | General (tensors : List Tensor) (conserve_number : Bool) (e_0 : Cq)
  | Diagonal (diag : List Cq) (conserve_number : Bool) (e_0 : Cq)
  | GSO (mat : ℕ → ℕ → Cq) (dim : ℕ) (conserve_number : Bool) (e_0 : Cq)
  | Restricted (mat : ℕ → ℕ → Cq) (dim : ℕ) (conserve_number : Bool) (e_0 : Cq)
  | SSO (mat : ℕ → ℕ → Cq) (norb : ℕ) (conserve_number : Bool) (e_0 : Cq)
  | DiagonalCoulomb (tensor : Tensor) (e_0 : Cq)

/-- Scalar offset stored in a representation. -/
def Ham.e0 : Ham → Cq
  | .Sparse _ _ _ e => e
  | .General _ _ e => e
  | .Diagonal _ _ e => e
  | .GSO _ _ _ e => e
  | .Restricted _ _ _ e => e
  | .SSO _ _ _ e => e
  | .DiagonalCoulomb _ e => e

/-- Whether a representation is the sparse/term-list one. -/
def Ham.isSparse : Ham → Bool
  | .Sparse _ _ _ _ => true
  | _ => false

/-- Hermiticity test of `process_rank2_matrix` (line 291):
`numpy.allclose(mat, mat.conj().T)` element-wise over the square matrix. -/
def hermClose (mat : ℕ → ℕ → Cq) (dim : ℕ) : Bool :=
  (List.range dim).all fun i =>
    (List.range dim).all fun j => cclose (mat i j) (cconj (mat j i))

/-- Diagnostic data computed by the print statements at lines 292-295 before
the bare `ValueError` is raised: the row-major-first index pair maximizing
the (squared) modulus of `mat - mat.conj().T`, together with `mat[index]`
and `mat[index[1], index[0]].conj()`.  (`numpy.argmax` returns the first
maximizing flattened position; maximizing the squared modulus is equivalent
to maximizing the modulus.) -/
def nonhermitian_report (mat : ℕ → ℕ → Cq) (dim : ℕ) : (ℕ × ℕ) × Cq × Cq :=
  let diffSq : ℕ → ℕ → ℚ := fun i j =>
    cnormSq (csub (mat i j) (cconj (mat j i)))
  let idx :=
    (List.range dim).foldl
      (fun best i =>
        (List.range dim).foldl
          (fun b j => if diffSq b.1 b.2 < diffSq i j then (i, j) else b)
          best)
      (0, 0)
  (idx, mat idx.1 idx.2, cconj (mat idx.2 idx.1))

/-- Strict-lower-triangle scan of `process_rank2_matrix` (lines 301-307):
`True` when every entry `mat[i, j]` with `0 <= j < i < bound` is exactly
zero (the source's inner `break` only shortcuts the scan). -/
def strictLowerZero (mat : ℕ → ℕ → Cq) (bound : ℕ) : Bool :=
  (List.range bound).all fun i =>
    (List.range i).all fun j => decide (mat i j = czero)

/-- Coupling-quadrant scan (line 314): `mat[norb:2*norb, :norb].any()`, with
numpy's slice clamping to the matrix dimension. -/
def couplingAny (mat : ℕ → ℕ → Cq) (norb dim : ℕ) : Bool :=
  (List.range (min (2 * norb) dim - norb)).any fun i =>
    (List.range (min norb dim)).any fun j =>
      decide (mat (norb + i) j ≠ czero)

/-- Spin-block comparison (line 319):
`numpy.allclose(mat[:norb, :norb], mat[norb:, norb:])`; faithful on the
square `2*norb`-dimensional matrices this code receives (numpy requires the
two block shapes to agree). -/
def blocksClose (mat : ℕ → ℕ → Cq) (norb : ℕ) : Bool :=
  (List.range norb).all fun i =>
    (List.range norb).all fun j =>
      cclose (mat i j) (mat (norb + i) (norb + j))

/-- Reduced `(norb, 2*norb)` tensor built for the SSO case (lines 324-326):
columns `[0, norb)` hold the alpha-alpha block, columns `[norb, 2*norb)`
hold the beta-beta block. -/
def ssoMat (mat : ℕ → ℕ → Cq) (norb : ℕ) : ℕ → ℕ → Cq :=
  fun i j => if j < norb then mat i j else mat (norb + i) j

/-- Ordered classification chain of `process_rank2_matrix` (lines 298-329),
after the Hermiticity gate, over the effective `norb`: diagonal scan, then
beta/alpha coupling quadrant, then restricted spin blocks, and finally the
separable (SSO) reduced tensor. -/
def rank2_classify (mat : ℕ → ℕ → Cq) (dim norb : ℕ) (conserve_number : Bool)
    (e_0 : Cq) : Ham :=
  if strictLowerZero mat (max norb dim) then
    .Diagonal ((List.range dim).map fun i => mat i i) conserve_number e_0
  else if couplingAny mat norb dim then
    .GSO mat dim conserve_number e_0
  else if blocksClose mat norb then
    .Restricted mat dim conserve_number e_0
  else
    .SSO (ssoMat mat norb) norb conserve_number e_0

/-- Embedding of `process_rank2_matrix` (lines 284-329): verify Hermiticity
(printing diagnostics and raising a bare `ValueError` otherwise), default a
zero `norb` to the matrix dimension, then classify by the ordered scans. -/
def process_rank2_matrix (mat : ℕ → ℕ → Cq) (dim : ℕ) (norb : ℕ)
    (conserve_number : Bool) (e_0 : Cq) : Except BuildErr Ham :=
  if !hermClose mat dim then .error .nonHermitianBare
  else
    .ok (rank2_classify mat dim (if norb = 0 then dim else norb)
      conserve_number e_0)

/-- Embedding of `check_diagonal_coulomb` (lines 332-346): scan every index
quadruple; entries at `i == k and j == l` are skipped (`pass`), any other
non-zero entry refutes the diagonal-Coulomb pattern. -/
def check_diagonal_coulomb (mat : Tensor) (dim : ℕ) : Bool :=
  (List.range dim).all fun i =>
    (List.range dim).all fun j =>
      (List.range dim).all fun k =>
        (List.range dim).all fun l =>
          if i = k ∧ j = l then true
          else decide (mat [i, j, k, l] = czero)

/-- Lookup of `ops_mat[rank]` in the insertion-ordered rank dict. -/
def lookupRank (m : List (ℕ × Tensor)) (r : ℕ) : Option Tensor :=
  (m.find? (fun p => p.1 == r)).map (fun p => p.2)

/-- Zero-filling loop and final constructor call of `build_hamiltonian`
(lines 95-105): missing even ranks from 2 through 8 become zero tensors and
the fully general representation is built from the 4-tuple. -/
def general_from_mats (ops_mat : List (ℕ × Tensor)) (conserve_number : Bool)
    (e_0 : Cq) : Ham :=
  .General
    [(lookupRank ops_mat 2).getD zeroTensor,
     (lookupRank ops_mat 4).getD zeroTensor,
     (lookupRank ops_mat 6).getD zeroTensor,
     (lookupRank ops_mat 8).getD zeroTensor]
    conserve_number e_0

/-- Single-rank specialization attempt of `build_hamiltonian`
(lines 84-105): with exactly one non-trivial rank, rank 2 goes to the rank-2
classifier and rank 4 to the diagonal-Coulomb check; everything else falls
through to the fully general multi-rank representation. -/
def hamiltonian_from_mats (ops_mat : List (ℕ × Tensor)) (norb : ℕ)
    (conserve_number : Bool) (e_0 : Cq) : Except BuildErr Ham :=
  if ops_mat.length = 1 then
    match lookupRank ops_mat 2 with
    | some t =>
      process_rank2_matrix (fun i j => t [i, j]) (2 * norb) norb
        conserve_number e_0
    | none =>
      match lookupRank ops_mat 4 with
      | some t =>
        if check_diagonal_coulomb t (2 * norb) then
          .ok (.DiagonalCoulomb t e_0)
        else .ok (general_from_mats ops_mat conserve_number e_0)
      | none => .ok (general_from_mats ops_mat conserve_number e_0)
  else .ok (general_from_mats ops_mat conserve_number e_0)

/-- One iteration of the shared-`norb` inference of `build_hamiltonian`
(line 77): `norb = max(norb + 1, ablk // 2 + 1, bblk // 2 + 1)`. -/
def inferNorbStep (norb : ℤ) (p : ℕ × FOp) : ℤ :=
  let ab := largest_operator_index p.2
  max (norb + 1) (max (ab.1.fdiv 2 + 1) (ab.2.fdiv 2 + 1))

/-- Shared-`norb` inference of `build_hamiltonian` (lines 74-77): reset
`norb` to 0, then fold `inferNorbStep` over the per-rank sub-expressions. -/
def inferNorb (ranks : List (ℕ × FOp)) : ℤ :=
  ranks.foldl inferNorbStep 0

/-- Tensor-building loop of `build_hamiltonian` (lines 79-81): build the
dense tensor of every per-rank sub-expression with the shared `norb`,
propagating the first raised error. -/
def matsGo : List (ℕ × FOp) → ℕ → Except BuildErr (List (ℕ × Tensor))
  | [], _ => .ok []
  | (r, term) :: rest, norb =>
    match fermionops_tomatrix term norb with
    | .error e => .error e
    | .ok t =>
      match matsGo rest norb with
      | .error e => .error e
      | .ok ms => .ok ((r, t) :: ms)

/-- The three input kinds the factory dispatches on: an already-specialized
representation, a raw tuple of dense tensors, or a generic operator
expression.  The source's `TypeError` branch (any other runtime type) has no
counterpart in this closed sum. -/
inductive BuildInput where
  | hamil (h : Ham)
  | rawTuple (tensors : List Tensor)
  | fermionOp (ops : FOp)

/-- Embedding of `build_hamiltonian` (lines 41-105), parameterized by the
external `normal_ordered` collaborator (OpenFermion, not in `src/`; the spec
treats the operator-algebra library as a black box).  `validate_tuple`
(from `fqe.util`, not in `src/`) checks a structural contract the spec does
not detail; it is modelled as accepting, which no verified property relies
on. -/
def build_hamiltonian (normal_ordered : FOp → FOp) (ops : BuildInput)
    (norb : ℕ) (conserve_number : Bool) (e_0 : Cq) : Except BuildErr Ham :=
  match ops with
  | .hamil h => .ok h
  | .rawTuple t => .ok (.General t conserve_number e_0)
  | .fermionOp ops =>
    if !is_hermitian ops then .error .assertNotHermitian
    else if ops.length ≤ 2 then .ok (.Sparse norb ops conserve_number e_0)
    else
      let ops1 := if conserve_number then ops else transform_to_spin_broken ops
      let ops2 := normal_ordered ops1
      match split_openfermion_tensor ops2 with
      | .error e => .error e
      | .ok (ops_rank, e_0) =>
        let norb := (inferNorb ops_rank).toNat
        match matsGo ops_rank norb with
        | .error e => .error e
        | .ok ops_mat => hamiltonian_from_mats ops_mat norb conserve_number e_0

deriving instance DecidableEq for Except

/-- Specification-side counterpart of `inferNorb`, written from the spec's
words for refinement comparison: "the maximum block requirement (highest
alpha block count, highest beta block count) taken over all per-rank
sub-expressions". -/
def spec_shared_norb (ranks : List (ℕ × FOp)) : ℤ :=
  ranks.foldl
    (fun acc p =>
      let ab := largest_operator_index p.2
      max acc (max (ab.1.fdiv 2 + 1) (ab.2.fdiv 2 + 1)))
    0

/-- Sum of the coefficients of the rank-0 (empty) terms of an expression. -/
def rank0_sum : FOp → Cq
  | [] => czero
  | (t, c) :: rest => if t = [] then cadd c (rank0_sum rest) else rank0_sum rest

/-- Canonical-ordering violation of one term against a given `half = rank // 2`:
some factor among the first `half` is not a creation operator, or some factor
from position `half` on is a creation operator. -/
def orderingViolation (t : Term) (half : ℕ) : Prop :=
  ∃ i : Fin t.length,
    (i.1 < half ∧ (t.get i).2 = false) ∨ (half ≤ i.1 ∧ (t.get i).2 = true)

/-- Ordering violation of a term scanned from running position `i`. -/
def violFrom (t : Term) (i half : ℕ) : Prop :=
  ∃ j : Fin t.length,
    (i + j.1 < half ∧ (t.get j).2 = false) ∨ (half ≤ i + j.1 ∧ (t.get j).2 = true)

/- Concrete inputs used by counterexamples and witnesses. -/

/-- Hermitian expression with two non-constant terms plus a constant term:
`2 + 1*(0^ 0) + 1*(1^ 1)`; three `terms` entries in total. -/
def ops3 : FOp :=
  [([], ⟨2, 0⟩),
   ([(0, true), (0, false)], ⟨1, 0⟩),
   ([(1, true), (1, false)], ⟨1, 0⟩)]

/-- Hermitian, normal-ordered expression with three terms spanning two ranks,
each rank only ever referencing orbital indices 0 and 1:
`1*(0^ 0) + 1*(1^ 1) + 1*(1^ 0^ 0 1)`. -/
def ops2cex : FOp :=
  [([(0, true), (0, false)], ⟨1, 0⟩),
   ([(1, true), (1, false)], ⟨1, 0⟩),
   ([(1, true), (0, true), (0, false), (1, false)], ⟨1, 0⟩)]

/-- The per-rank split of `ops2cex`. -/
def ranks2cex : List (ℕ × FOp) :=
  [(2, [([(0, true), (0, false)], ⟨1, 0⟩), ([(1, true), (1, false)], ⟨1, 0⟩)]),
   (4, [([(1, true), (0, true), (0, false), (1, false)], ⟨1, 0⟩)])]

/-- Non-Hermitian 2×2 matrix `[[0, 1], [0, 0]]`. -/
def mat6 : ℕ → ℕ → Cq := fun i j => if i = 0 ∧ j = 1 then ⟨1, 0⟩ else czero

/-- Diagonal 2×2 matrix with entries 1 and 2. -/
def matW : ℕ → ℕ → Cq := fun i j =>
  if i = 0 ∧ j = 0 then ⟨1, 0⟩ else if i = 1 ∧ j = 1 then ⟨2, 0⟩ else czero

/-- Canonically ordered one-term rank-2 expression `1*(0^ 0)`. -/
def opsW : FOp := [([(0, true), (0, false)], ⟨1, 0⟩)]

instance orderingViolationDec (t : Term) (half : ℕ) :
    Decidable (orderingViolation t half) :=
  decidable_of_iff
    (∃ i : Fin t.length,
      (i.1 < half ∧ (t.get i).2 = false) ∨ (half ≤ i.1 ∧ (t.get i).2 = true))
    Iff.rfl

theorem addTerm_fresh (e : FOp) (t : Term) (c : Cq) (h : ∀ p ∈ e, p.1 ≠ t) :
    addTerm e t c = e ++ [(t, c)] := by
  unfold addTerm
  rw [if_neg]
  simp only [List.any_eq_true, decide_eq_true_eq, not_exists, not_and]
  intro p hp
  exact h p hp

theorem transform_foldl_map (e : FOp) : ∀ acc : FOp,
    (acc.map Prod.fst ++ e.map (fun p => p.1.map spin_broken_factor)).Nodup →
    e.foldl (fun acc2 p => addTerm acc2 (p.1.map spin_broken_factor) p.2) acc =
      acc ++ e.map (fun p => (p.1.map spin_broken_factor, p.2)) := by
  induction e with
  | nil => intro acc _; simp
  | cons q rest ih =>
    intro acc h
    simp only [List.map_cons] at h
    rw [List.append_cons] at h
    have h2 := h
    rw [← List.append_cons] at h2
    have hfresh : ∀ p ∈ acc, p.1 ≠ q.1.map spin_broken_factor := by
      intro p hp
      have hmem : p.1 ∈ acc.map Prod.fst := List.mem_map_of_mem Prod.fst hp
      have hdisj := (List.nodup_append.mp h2).2.2
      intro hcontra
      exact hdisj hmem (by rw [hcontra]; exact List.mem_cons_self _ _)
    simp only [List.foldl_cons]
    rw [addTerm_fresh _ _ _ hfresh]
    rw [ih (acc ++ [(q.1.map spin_broken_factor, q.2)]) (by simpa using h)]
    simp

theorem spin_broken_factor_involutive :
    Function.Involutive spin_broken_factor := by
  intro f
  unfold spin_broken_factor
  by_cases h : f.1 % 2 = 1 <;> simp [h]

/-- C1 (amended).  The spin-breaking transform maps every term of the input
factor-wise, flipping a factor's creation/annihilation role if and only if
its orbital index is odd (beta) — even (alpha) indices keep their role — and
carries every coefficient over unchanged.  (Stated for expressions whose
term keys are distinct, as they are in the `FermionOperator.terms` dict the
source iterates over.) -/
theorem claim_C1_amended (e : FOp) (h : (e.map Prod.fst).Nodup) :
    transform_to_spin_broken e =
      e.map (fun p =>
        (p.1.map (fun f => if f.1 % 2 = 1 then (f.1, !f.2) else (f.1, f.2)),
         p.2)) := by
  have hinj : Function.Injective (List.map spin_broken_factor) :=
    List.map_injective_iff.mpr spin_broken_factor_involutive.injective
  have hkeys : (e.map (fun p => p.1.map spin_broken_factor)).Nodup := by
    have : e.map (fun p => p.1.map spin_broken_factor)
        = (e.map Prod.fst).map (List.map spin_broken_factor) := by
      simp [List.map_map, Function.comp]
    rw [this]
    exact h.map hinj
  have := transform_foldl_map e [] (by simpa using hkeys)
  simpa [transform_to_spin_broken] using this

/-- C1 (counterexample).  The claim predicts that the factor on the even
(alpha) index 0 has its role flipped and the factor on the odd (beta) index 1
keeps it; the code does exactly the opposite. -/
theorem claim_C1_counterexample :
    transform_to_spin_broken [([(0, true)], ⟨1, 0⟩)]
        = [([(0, true)], ⟨1, 0⟩)] ∧
    transform_to_spin_broken [([(0, true)], ⟨1, 0⟩)]
        ≠ [([(0, false)], ⟨1, 0⟩)] ∧
    transform_to_spin_broken [([(1, true)], ⟨1, 0⟩)]
        = [([(1, false)], ⟨1, 0⟩)] := by
  with_unfolding_all decide

/-- C1 (witness): the amended theorem evaluated on a concrete two-term
expression. -/
theorem claim_C1_witness :
    (([([(0, true), (1, false)], ⟨1, 0⟩), ([(2, false)], ⟨0, 1⟩)] : FOp).map
        Prod.fst).Nodup ∧
    transform_to_spin_broken
        [([(0, true), (1, false)], ⟨1, 0⟩), ([(2, false)], ⟨0, 1⟩)] =
      [([(0, true), (1, true)], ⟨1, 0⟩), ([(2, false)], ⟨0, 1⟩)] := by
  refine ⟨by decide, ?_⟩
  rw [claim_C1_amended _ (by decide)]
  with_unfolding_all decide

/-- C2 (code bug, evaluated at the failing input).  `ops2cex` is Hermitian,
has three terms (so it reaches the general case), and its per-rank split
needs only one alpha and one beta spatial orbital in every rank, so the
spec's "maximum block requirement across all ranks" is 1; but the source's
fold `norb = max(norb + 1, ablk // 2 + 1, bblk // 2 + 1)` (line 77) raises
`norb` once per rank and returns 2. -/
theorem claim_C2_code_bug :
    is_hermitian ops2cex = true ∧
    ops2cex.length = 3 ∧
    split_openfermion_tensor ops2cex = .ok (ranks2cex, czero) ∧
    inferNorb ranks2cex = 2 ∧
    spec_shared_norb ranks2cex = 1 := by
  refine ⟨by with_unfolding_all decide, by decide, by with_unfolding_all decide,
    by with_unfolding_all decide, by with_unfolding_all decide⟩

/-- C6 (code bug, evaluated at the failing input).  On the non-Hermitian
matrix `[[0, 1], [0, 0]]` the rank-2 classifier raises the bare, untyped
`ValueError` (`nonHermitianBare`, carrying no data); the offending index
pair and the two compared values are only computed for the `print`
statements, embedded here as `nonhermitian_report`. -/
theorem claim_C6_code_bug :
    hermClose mat6 2 = false ∧
    process_rank2_matrix mat6 2 0 true czero = .error .nonHermitianBare ∧
    nonhermitian_report mat6 2 = ((0, 1), ⟨1, 0⟩, ⟨0, 0⟩) := by
  refine ⟨by with_unfolding_all decide, by with_unfolding_all rfl,
    by with_unfolding_all decide⟩

theorem check_diagonal_coulomb_iff (t : Tensor) (dim : ℕ) :
    check_diagonal_coulomb t dim = true ↔
      ∀ i < dim, ∀ j < dim, ∀ k < dim, ∀ l < dim,
        ¬(i = k ∧ j = l) → t [i, j, k, l] = czero := by
  simp only [check_diagonal_coulomb, List.all_eq_true, List.mem_range]
  constructor
  · intro h i hi j hj k hk l hl hne
    have hx := h i hi j hj k hk l hl
    rw [if_neg hne] at hx
    exact of_decide_eq_true hx
  · intro h i hi j hj k hk l hl
    by_cases hc : i = k ∧ j = l
    · rw [if_pos hc]
    · rw [if_neg hc]
      exact decide_eq_true (h i hi j hj k hk l hl hc)

/-- C5 (confirmed).  A rank-4 tensor passes `check_diagonal_coulomb` exactly
when every entry at an index quadruple `(i, j, k, l)` with
`not (i == k and j == l)` is exactly zero, and on a single-rank-4 input the
factory returns the Diagonal-Coulomb representation precisely in that case,
falling back to the fully general multi-rank representation (with the other
even ranks zero-filled) on any violation. -/
theorem claim_C5 (t : Tensor) (norb : ℕ) (cn : Bool) (e0 : Cq) :
    (check_diagonal_coulomb t (2 * norb) = true ↔
      ∀ i < 2 * norb, ∀ j < 2 * norb, ∀ k < 2 * norb, ∀ l < 2 * norb,
        ¬(i = k ∧ j = l) → t [i, j, k, l] = czero) ∧
    hamiltonian_from_mats [(4, t)] norb cn e0 =
      (if check_diagonal_coulomb t (2 * norb) then .ok (.DiagonalCoulomb t e0)
       else .ok (.General [zeroTensor, t, zeroTensor, zeroTensor] cn e0)) := by
  constructor
  · exact check_diagonal_coulomb_iff t (2 * norb)
  · by_cases hc : check_diagonal_coulomb t (2 * norb) = true
    · simp [hamiltonian_from_mats, lookupRank, List.find?, hc]
    · simp only [Bool.not_eq_true] at hc
      simp [hamiltonian_from_mats, lookupRank, List.find?, hc,
        general_from_mats]

theorem strictLowerZero_iff (mat : ℕ → ℕ → Cq) (bound : ℕ) :
    strictLowerZero mat bound = true ↔
      ∀ i < bound, ∀ j < i, mat i j = czero := by
  simp [strictLowerZero, List.all_eq_true, List.mem_range]

theorem couplingAny_iff (mat : ℕ → ℕ → Cq) (norb dim : ℕ) :
    couplingAny mat norb dim = true ↔
      ∃ i < min (2 * norb) dim - norb, ∃ j < min norb dim,
        mat (norb + i) j ≠ czero := by
  simp [couplingAny, List.any_eq_true, List.mem_range]

theorem blocksClose_iff (mat : ℕ → ℕ → Cq) (norb : ℕ) :
    blocksClose mat norb = true ↔
      ∀ i < norb, ∀ j < norb,
        cclose (mat i j) (mat (norb + i) (norb + j)) = true := by
  simp [blocksClose, List.all_eq_true, List.mem_range]

/-- C4 (confirmed).  On a Hermitian `2*norb`-dimensional matrix the rank-2
classifier applies the fixed ordered case analysis: all-zero strict lower
triangle gives Diagonal built from the matrix diagonal; otherwise a non-zero
entry in the beta/alpha coupling quadrant (rows `norb:2*norb`, columns
`0:norb`) gives GSO; otherwise alpha-alpha and beta-beta blocks equal within
tolerance gives Restricted; otherwise SSO with the reduced `(norb, 2*norb)`
tensor holding the two diagonal blocks.  The first matching pattern wins. -/
theorem claim_C4 (norb : ℕ) (mat : ℕ → ℕ → Cq) (cn : Bool) (e0 : Cq)
    (hn : 0 < norb) (hherm : hermClose mat (2 * norb) = true) :
    ((∀ i < 2 * norb, ∀ j < i, mat i j = czero) →
      process_rank2_matrix mat (2 * norb) norb cn e0 =
        .ok (.Diagonal ((List.range (2 * norb)).map fun i => mat i i) cn
          e0)) ∧
    ((¬ ∀ i < 2 * norb, ∀ j < i, mat i j = czero) →
      (∃ i < norb, ∃ j < norb, mat (norb + i) j ≠ czero) →
      process_rank2_matrix mat (2 * norb) norb cn e0 =
        .ok (.GSO mat (2 * norb) cn e0)) ∧
    ((¬ ∀ i < 2 * norb, ∀ j < i, mat i j = czero) →
      (¬ ∃ i < norb, ∃ j < norb, mat (norb + i) j ≠ czero) →
      (∀ i < norb, ∀ j < norb,
        cclose (mat i j) (mat (norb + i) (norb + j)) = true) →
      process_rank2_matrix mat (2 * norb) norb cn e0 =
        .ok (.Restricted mat (2 * norb) cn e0)) ∧
    ((¬ ∀ i < 2 * norb, ∀ j < i, mat i j = czero) →
      (¬ ∃ i < norb, ∃ j < norb, mat (norb + i) j ≠ czero) →
      (¬ ∀ i < norb, ∀ j < norb,
        cclose (mat i j) (mat (norb + i) (norb + j)) = true) →
      process_rank2_matrix mat (2 * norb) norb cn e0 =
        .ok (.SSO (fun i j => if j < norb then mat i j else mat (norb + i) j)
          norb cn e0)) := by
  have hn0 : norb ≠ 0 := Nat.pos_iff_ne_zero.mp hn
  have hmax : max norb (2 * norb) = 2 * norb := Nat.max_eq_right (by omega)
  have hSLZ : strictLowerZero mat (max norb (2 * norb)) = true ↔
      ∀ i < 2 * norb, ∀ j < i, mat i j = czero := by
    rw [hmax]; exact strictLowerZero_iff mat (2 * norb)
  have hCA : couplingAny mat norb (2 * norb) = true ↔
      ∃ i < norb, ∃ j < norb, mat (norb + i) j ≠ czero := by
    have h := couplingAny_iff mat norb (2 * norb)
    rw [Nat.min_self, show 2 * norb - norb = norb from by omega,
      Nat.min_eq_left (by omega)] at h
    exact h
  have hBC := blocksClose_iff mat norb
  have hred : process_rank2_matrix mat (2 * norb) norb cn e0 =
      .ok (rank2_classify mat (2 * norb) norb cn e0) := by
    unfold process_rank2_matrix
    rw [hherm]
    simp only [Bool.not_true, Bool.false_eq_true, if_false, if_neg hn0]
  refine ⟨?_, ?_, ?_, ?_⟩
  · intro h1
    rw [hred]
    unfold rank2_classify
    rw [if_pos (hSLZ.mpr h1)]
  · intro h1 h2
    rw [hred]
    unfold rank2_classify
    rw [if_neg (fun hx => h1 (hSLZ.mp hx)), if_pos (hCA.mpr h2)]
  · intro h1 h2 h3
    rw [hred]
    unfold rank2_classify
    rw [if_neg (fun hx => h1 (hSLZ.mp hx)), if_neg (fun hx => h2 (hCA.mp hx)),
      if_pos (hBC.mpr h3)]
  · intro h1 h2 h3
    rw [hred]
    unfold rank2_classify
    rw [if_neg (fun hx => h1 (hSLZ.mp hx)), if_neg (fun hx => h2 (hCA.mp hx)),
      if_neg (fun hx => h3 (hBC.mp hx))]
    rfl

/-- C4 (witness): the Diagonal case of the classifier evaluated on a
concrete Hermitian diagonal matrix with `norb = 1`. -/
theorem claim_C4_witness :
    (0 : ℕ) < 1 ∧ hermClose matW 2 = true ∧
    process_rank2_matrix matW 2 1 true czero =
      .ok (.Diagonal [⟨1, 0⟩, ⟨2, 0⟩] true czero) := by
  refine ⟨by decide, by with_unfolding_all decide, ?_⟩
  have h := (claim_C4 1 matW true czero (by decide)
    (by with_unfolding_all decide)).1 (by decide)
  rw [h]
  with_unfolding_all rfl

theorem cadd_czero (a : Cq) : cadd a czero = a := by
  simp [cadd, czero]

theorem czero_cadd (a : Cq) : cadd czero a = a := by
  simp [cadd, czero]

theorem cadd_assoc (a b c : Cq) : cadd (cadd a b) c = cadd a (cadd b c) := by
  simp [cadd, add_assoc]

theorem splitGo_error (l : FOp) : ∀ s acc e,
    splitGo l s acc = .error e → e = .invalidRank := by
  induction l with
  | nil => intro s acc e h; simp [splitGo] at h
  | cons p rest ih =>
    intro s acc e h
    obtain ⟨t, c⟩ := p
    unfold splitGo at h
    split at h
    · injection h with h2; exact h2.symm
    · split at h
      · exact ih _ _ _ h
      · exact ih _ _ _ h

theorem splitGo_e0 (l : FOp) : ∀ s acc r s2,
    splitGo l s acc = .ok (r, s2) → s2 = cadd acc (rank0_sum l) := by
  induction l with
  | nil =>
    intro s acc r s2 h
    unfold splitGo at h
    injection h with h2
    have hs2 : acc = s2 := congrArg Prod.snd h2
    rw [← hs2, rank0_sum, cadd_czero]
  | cons p rest ih =>
    intro s acc r s2 h
    obtain ⟨t, c⟩ := p
    unfold splitGo at h
    split at h
    · simp at h
    · rename_i hodd
      split at h
      · rename_i hzero
        have ht : t = [] := List.length_eq_zero.mp hzero
        have := ih _ _ _ _ h
        rw [this, rank0_sum, if_pos ht, cadd_assoc]
      · rename_i hzero
        have ht : t ≠ [] := fun hc => hzero (by simp [termRank, hc])
        have := ih _ _ _ _ h
        rw [this, rank0_sum, if_neg ht]

theorem matsGo_error (l : List (ℕ × FOp)) : ∀ norb e,
    matsGo l norb = .error e →
      ∃ p ∈ l, fermionops_tomatrix p.2 norb = .error e := by
  induction l with
  | nil => intro norb e h; simp [matsGo] at h
  | cons p rest ih =>
    intro norb e h
    obtain ⟨r, term⟩ := p
    unfold matsGo at h
    split at h
    · rename_i heq
      injection h with h2
      exact ⟨(r, term), List.mem_cons_self _ _, by rw [heq, h2]⟩
    · split at h
      · injection h with h2
        obtain ⟨q, hq, hfq⟩ := ih norb _ (by rename_i heq2; rw [heq2, h2])
        exact ⟨q, List.mem_cons_of_mem _ hq, hfq⟩
      · simp at h

theorem term_index_mask_error (t : Term) : ∀ i half ablk e,
    term_index_mask t i half ablk = .error e → e.isOrdering = true := by
  induction t with
  | nil => intro i half ablk e h; simp [term_index_mask] at h
  | cons f rest ih =>
    intro i half ablk e h
    unfold term_index_mask at h
    split at h
    · split at h
      · injection h with h2; rw [← h2]; rfl
      · split at h
        · injection h with h2
          rename_i heq
          exact h2 ▸ ih _ _ _ _ heq
        · simp at h
    · split at h
      · injection h with h2; rw [← h2]; rfl
      · split at h
        · injection h with h2
          rename_i heq
          exact h2 ▸ ih _ _ _ _ heq
        · simp at h

theorem tomatrixGo_error (l : FOp) : ∀ half ablk tensor e,
    tomatrixGo l half ablk tensor = .error e → e.isOrdering = true := by
  induction l with
  | nil => intro half ablk tensor e h; simp [tomatrixGo] at h
  | cons p rest ih =>
    intro half ablk tensor e h
    obtain ⟨t, c⟩ := p
    unfold tomatrixGo at h
    split at h
    · injection h with h2
      rename_i heq
      exact h2 ▸ term_index_mask_error t _ _ _ _ heq
    · exact ih _ _ _ _ h

theorem isOrdering_not_dim (e : BuildErr) (h : e.isOrdering = true) :
    e.isDimension = false := by
  cases e <;> simp_all [BuildErr.isOrdering, BuildErr.isDimension]

theorem rank2_classify_shape (mat : ℕ → ℕ → Cq) (dim norb : ℕ) (cn : Bool)
    (e0 : Cq) :
    (rank2_classify mat dim norb cn e0).isSparse = false ∧
    (rank2_classify mat dim norb cn e0).e0 = e0 := by
  unfold rank2_classify
  split
  · exact ⟨rfl, rfl⟩
  · split
    · exact ⟨rfl, rfl⟩
    · split
      · exact ⟨rfl, rfl⟩
      · exact ⟨rfl, rfl⟩

theorem process_rank2_ok_shape (mat : ℕ → ℕ → Cq) (dim norb : ℕ) (cn : Bool)
    (e0 : Cq) (h : Ham)
    (he : process_rank2_matrix mat dim norb cn e0 = .ok h) :
    h.isSparse = false ∧ h.e0 = e0 := by
  unfold process_rank2_matrix at he
  split at he
  · simp at he
  · injection he with h2
    rw [← h2]
    exact rank2_classify_shape _ _ _ _ _

theorem process_rank2_error (mat : ℕ → ℕ → Cq) (dim norb : ℕ) (cn : Bool)
    (e0 : Cq) (e : BuildErr)
    (he : process_rank2_matrix mat dim norb cn e0 = .error e) :
    e = .nonHermitianBare := by
  unfold process_rank2_matrix at he
  split at he
  · injection he with h2; exact h2.symm
  · simp at he

theorem hamiltonian_from_mats_ok_shape (ops_mat : List (ℕ × Tensor))
    (norb : ℕ) (cn : Bool) (e0 : Cq) (h : Ham)
    (he : hamiltonian_from_mats ops_mat norb cn e0 = .ok h) :
    h.isSparse = false ∧ h.e0 = e0 := by
  unfold hamiltonian_from_mats at he
  split at he
  · split at he
    · exact process_rank2_ok_shape _ _ _ _ _ _ he
    · split at he
      · split at he
        · injection he with h2; rw [← h2]; exact ⟨rfl, rfl⟩
        · injection he with h2; rw [← h2]; exact ⟨rfl, rfl⟩
      · injection he with h2; rw [← h2]; exact ⟨rfl, rfl⟩
  · injection he with h2; rw [← h2]; exact ⟨rfl, rfl⟩

theorem hamiltonian_from_mats_error (ops_mat : List (ℕ × Tensor))
    (norb : ℕ) (cn : Bool) (e0 : Cq) (e : BuildErr)
    (he : hamiltonian_from_mats ops_mat norb cn e0 = .error e) :
    e = .nonHermitianBare := by
  unfold hamiltonian_from_mats at he
  split at he
  · split at he
    · exact process_rank2_error _ _ _ _ _ _ he
    · split at he
      · split at he
        · simp at he
        · simp at he
      · simp at he
  · simp at he

theorem build_hamiltonian_dense (no : FOp → FOp) (ops : FOp) (n : ℕ)
    (cn : Bool) (e : Cq) (hh : is_hermitian ops = true)
    (hlen : 2 < ops.length) :
    build_hamiltonian no (.fermionOp ops) n cn e =
      (match split_openfermion_tensor
          (no (if cn then ops else transform_to_spin_broken ops)) with
      | .error er => .error er
      | .ok (ops_rank, e_0) =>
        match matsGo ops_rank (inferNorb ops_rank).toNat with
        | .error er => .error er
        | .ok ops_mat =>
          hamiltonian_from_mats ops_mat (inferNorb ops_rank).toNat cn e_0) := by
  simp only [build_hamiltonian, hh, Bool.not_true, Bool.false_eq_true,
    if_false]
  rw [if_neg (by omega)]

theorem build_hamiltonian_dense_ok (no : FOp → FOp) (ops : FOp) (n : ℕ)
    (cn : Bool) (e : Cq) (ranks : List (ℕ × FOp)) (s : Cq)
    (hh : is_hermitian ops = true) (hlen : 2 < ops.length)
    (hsplit : split_openfermion_tensor
        (no (if cn then ops else transform_to_spin_broken ops)) =
      .ok (ranks, s)) :
    build_hamiltonian no (.fermionOp ops) n cn e =
      (match matsGo ranks (inferNorb ranks).toNat with
      | .error er => .error er
      | .ok ops_mat =>
          hamiltonian_from_mats ops_mat (inferNorb ranks).toNat cn s) := by
  rw [build_hamiltonian_dense no ops n cn e hh hlen, hsplit]

/-- C3 (amended).  The factory's sparse short-circuit counts all distinct
raw-term entries of the expression, the constant (rank-0) term included:
a Hermitian expression with at most two entries in `ops.terms` yields the
sparse/term-list representation, and with more than two entries the dense
pipeline never produces a sparse representation. -/
theorem claim_C3_amended (no : FOp → FOp) (ops : FOp) (n : ℕ) (cn : Bool)
    (e : Cq) (hh : is_hermitian ops = true) :
    (ops.length ≤ 2 →
      build_hamiltonian no (.fermionOp ops) n cn e =
        .ok (.Sparse n ops cn e)) ∧
    (2 < ops.length →
      ∀ h, build_hamiltonian no (.fermionOp ops) n cn e = .ok h →
        h.isSparse = false) := by
  constructor
  · intro hle
    simp only [build_hamiltonian, hh, Bool.not_true, Bool.false_eq_true,
      if_false]
    rw [if_pos hle]
  · intro hgt h he
    rw [build_hamiltonian_dense no ops n cn e hh hgt] at he
    split at he
    · simp at he
    · split at he
      · simp at he
      · exact (hamiltonian_from_mats_ok_shape _ _ _ _ _ he).1

/-- C3 (counterexample).  `ops3` has exactly two non-constant terms (so the
claim as stated routes it to the sparse representation), is Hermitian, and
yet the factory does not return a sparse representation for it: the constant
term makes `len(ops.terms) = 3 > 2`. -/
theorem claim_C3_counterexample :
    is_hermitian ops3 = true ∧
    (ops3.filter (fun p => p.1 ≠ [])).length ≤ 2 ∧
    (build_hamiltonian id (.fermionOp ops3) 0 true czero).map Ham.isSparse
      = .ok false := by
  refine ⟨by with_unfolding_all decide, by decide, ?_⟩
  with_unfolding_all decide

/-- C3 (witness): the sparse branch of the amended theorem evaluated on a
concrete two-term Hermitian expression. -/
theorem claim_C3_witness :
    is_hermitian [([(0, true), (0, false)], (⟨1, 0⟩ : Cq))] = true ∧
    ([([(0, true), (0, false)], (⟨1, 0⟩ : Cq))] : FOp).length ≤ 2 ∧
    build_hamiltonian id
        (.fermionOp [([(0, true), (0, false)], ⟨1, 0⟩)]) 4 true czero =
      .ok (.Sparse 4 [([(0, true), (0, false)], ⟨1, 0⟩)] true czero) := by
  refine ⟨by with_unfolding_all decide, by decide, ?_⟩
  exact (claim_C3_amended id [([(0, true), (0, false)], ⟨1, 0⟩)] 4 true czero
    (by with_unfolding_all decide)).1 (by decide)

/-- C8 (confirmed).  An input that is already a specialized representation is
returned unchanged by the factory, whatever `norb`, `conserve_number` and
`e_0` are; consequently feeding any factory output back into the factory
returns it unchanged (idempotence on its own outputs), for every
representation variant. -/
theorem claim_C8 :
    (∀ (no : FOp → FOp) (h : Ham) (n : ℕ) (cn : Bool) (e : Cq),
      build_hamiltonian no (.hamil h) n cn e = .ok h) ∧
    (∀ (no no2 : FOp → FOp) (inp : BuildInput) (n n2 : ℕ) (cn cn2 : Bool)
        (e e2 : Cq) (h : Ham),
      build_hamiltonian no inp n cn e = .ok h →
      build_hamiltonian no2 (.hamil h) n2 cn2 e2 = .ok h) :=
  ⟨fun _ _ _ _ _ => rfl, fun _ _ _ _ _ _ _ _ _ _ _ => rfl⟩

/-- C8 (witness): identity short-circuit and idempotence evaluated on a
concrete specialized representation, with differing `norb`,
`conserve_number` and `e_0` arguments. -/
theorem claim_C8_witness :
    build_hamiltonian id (.hamil (.Diagonal [⟨1, 0⟩] true czero)) 0 true czero
        = .ok (.Diagonal [⟨1, 0⟩] true czero) ∧
    build_hamiltonian id (.hamil (.Diagonal [⟨1, 0⟩] true czero)) 5 false
        ⟨3, 0⟩ = .ok (.Diagonal [⟨1, 0⟩] true czero) :=
  ⟨claim_C8.1 id (.Diagonal [⟨1, 0⟩] true czero) 0 true czero,
   claim_C8.2 id id (.hamil (.Diagonal [⟨1, 0⟩] true czero)) 0 5 true false
     czero ⟨3, 0⟩ (.Diagonal [⟨1, 0⟩] true czero)
     (claim_C8.1 id (.Diagonal [⟨1, 0⟩] true czero) 0 true czero)⟩

/-- C9 (confirmed).  On the general (dense) path the caller-supplied `e_0`
has no effect on the result, and the scalar offset of the returned
representation is exactly the sum of the rank-0 coefficients of the
normal-ordered (and, when number non-conservation is requested,
spin-broken-transformed) expression — it replaces the `e_0` argument rather
than adding to it. -/
theorem claim_C9 (no : FOp → FOp) (ops : FOp) (n : ℕ) (cn : Bool) (e e2 : Cq)
    (hh : is_hermitian ops = true) (hlen : 2 < ops.length) :
    build_hamiltonian no (.fermionOp ops) n cn e =
      build_hamiltonian no (.fermionOp ops) n cn e2 ∧
    ∀ ranks s,
      split_openfermion_tensor
          (no (if cn then ops else transform_to_spin_broken ops)) =
        .ok (ranks, s) →
      s = rank0_sum (no (if cn then ops else transform_to_spin_broken ops)) ∧
      ∀ h, build_hamiltonian no (.fermionOp ops) n cn e = .ok h →
        h.e0 = s := by
  constructor
  · rw [build_hamiltonian_dense no ops n cn e hh hlen,
      build_hamiltonian_dense no ops n cn e2 hh hlen]
  · intro ranks s hsplit
    constructor
    · have := splitGo_e0 _ [] czero ranks s hsplit
      rw [this, czero_cadd]
    · intro h he
      rw [build_hamiltonian_dense_ok no ops n cn e ranks s hh hlen hsplit]
        at he
      split at he
      · simp at he
      · exact (hamiltonian_from_mats_ok_shape _ _ _ _ _ he).2

/-- C9 (witness): `e_0`-independence and the replaced offset evaluated on a
concrete three-term Hermitian expression whose constant term is 2. -/
theorem claim_C9_witness :
    is_hermitian ops3 = true ∧ 2 < ops3.length ∧
    build_hamiltonian id (.fermionOp ops3) 0 true czero =
      build_hamiltonian id (.fermionOp ops3) 0 true ⟨5, 0⟩ := by
  refine ⟨by with_unfolding_all decide, by decide, ?_⟩
  exact (claim_C9 id ops3 0 true czero ⟨5, 0⟩
    (by with_unfolding_all decide) (by decide)).1

theorem foldl_inferNorbStep_ge (l : List (ℕ × FOp)) : ∀ acc : ℤ,
    acc ≤ l.foldl inferNorbStep acc := by
  induction l with
  | nil => intro acc; simp
  | cons q rest ih =>
    intro acc
    simp only [List.foldl_cons]
    have h1 : acc + 1 ≤ inferNorbStep acc q := by
      simp only [inferNorbStep]
      exact le_max_left _ _
    exact le_trans (le_trans (by omega) h1) (ih _)

theorem foldl_inferNorbStep_mem (l : List (ℕ × FOp)) :
    ∀ (acc : ℤ) (p : ℕ × FOp), p ∈ l →
      max ((largest_operator_index p.2).1.fdiv 2 + 1)
        ((largest_operator_index p.2).2.fdiv 2 + 1) ≤
        l.foldl inferNorbStep acc := by
  induction l with
  | nil => intro acc p hp; simp at hp
  | cons q rest ih =>
    intro acc p hp
    simp only [List.foldl_cons]
    rcases List.mem_cons.mp hp with h | h
    · subst h
      have h1 : max ((largest_operator_index p.2).1.fdiv 2 + 1)
          ((largest_operator_index p.2).2.fdiv 2 + 1) ≤ inferNorbStep acc p := by
        simp only [inferNorbStep]
        exact le_max_right _ _
      exact le_trans h1 (foldl_inferNorbStep_ge rest _)
    · exact ih _ p h

theorem inferNorb_nonneg (l : List (ℕ × FOp)) : 0 ≤ inferNorb l :=
  foldl_inferNorbStep_ge l 0

theorem fdiv_two_mono {a b : ℤ} (h : a ≤ b) : a.fdiv 2 ≤ b.fdiv 2 := by
  rw [Int.fdiv_eq_ediv a (by omega), Int.fdiv_eq_ediv b (by omega)]
  exact Int.ediv_le_ediv (by omega) h

theorem tomatrix_dim_ok (opsT : FOp) (norb : ℕ)
    (ha : (largest_operator_index opsT).1.fdiv 2 + 1 ≤ (norb : ℤ))
    (hb : ((largest_operator_index opsT).2 - 1).fdiv 2 + 1 ≤ (norb : ℤ)) :
    ∃ d, tomatrix_dim opsT norb = .ok d := by
  simp only [tomatrix_dim]
  by_cases hn : norb ≠ 0
  · rw [if_pos hn, if_neg (by omega), if_neg (by omega)]
    exact ⟨2 * norb, rfl⟩
  · rw [if_neg hn]
    exact ⟨_, rfl⟩

theorem fermionops_tomatrix_dim_eq (opsT : FOp) (norb d : ℕ)
    (hd : tomatrix_dim opsT norb = .ok d) :
    fermionops_tomatrix opsT norb =
      (if many_body_order opsT % 2 = 1 then .error .oddRankOp
       else tomatrixGo opsT (many_body_order opsT / 2) (d / 2) zeroTensor) := by
  unfold fermionops_tomatrix
  rw [hd]

theorem fermionops_tomatrix_error_not_dim (opsT : FOp) (norb : ℕ)
    (ha : (largest_operator_index opsT).1.fdiv 2 + 1 ≤ (norb : ℤ))
    (hb : ((largest_operator_index opsT).2 - 1).fdiv 2 + 1 ≤ (norb : ℤ))
    (e : BuildErr) (he : fermionops_tomatrix opsT norb = .error e) :
    e.isDimension = false := by
  obtain ⟨d, hd⟩ := tomatrix_dim_ok opsT norb ha hb
  rw [fermionops_tomatrix_dim_eq opsT norb d hd] at he
  split at he
  · injection he with h2; rw [← h2]; rfl
  · exact isOrdering_not_dim e (tomatrixGo_error _ _ _ _ _ he)

/-- C10 (confirmed).  On the general (dense) path the caller-supplied `norb`
has no effect on the result (it is reset to 0 at line 74 and re-inferred
from the split expression), and the explicit-orbital-count validation of the
tensor builder never fires on this path: no dimension error can be
returned. -/
theorem claim_C10 (no : FOp → FOp) (ops : FOp) (n n2 : ℕ) (cn : Bool)
    (e : Cq) (hh : is_hermitian ops = true) (hlen : 2 < ops.length) :
    build_hamiltonian no (.fermionOp ops) n cn e =
      build_hamiltonian no (.fermionOp ops) n2 cn e ∧
    ∀ er, build_hamiltonian no (.fermionOp ops) n cn e = .error er →
      er.isDimension = false := by
  constructor
  · rw [build_hamiltonian_dense no ops n cn e hh hlen,
      build_hamiltonian_dense no ops n2 cn e hh hlen]
  · intro er he
    rw [build_hamiltonian_dense no ops n cn e hh hlen] at he
    split at he
    · rename_i er2 heq
      injection he with h2
      rw [← h2, splitGo_error _ _ _ _ heq]
      rfl
    · rename_i x ranks s heq
      split at he
      · rename_i er2 hmats
        injection he with h2
        obtain ⟨p, hp, hfp⟩ := matsGo_error _ _ _ hmats
        have hmem := foldl_inferNorbStep_mem ranks 0 p hp
        have hnn : 0 ≤ inferNorb ranks := inferNorb_nonneg ranks
        have hcast : (((inferNorb ranks).toNat : ℤ)) = inferNorb ranks :=
          Int.toNat_of_nonneg hnn
        have ha : (largest_operator_index p.2).1.fdiv 2 + 1 ≤
            (((inferNorb ranks).toNat : ℤ)) := by
          rw [hcast]
          exact le_trans (le_max_left _ _) hmem
        have hbBH : (largest_operator_index p.2).2.fdiv 2 + 1 ≤
            (((inferNorb ranks).toNat : ℤ)) := by
          rw [hcast]
          exact le_trans (le_max_right _ _) hmem
        have hb : ((largest_operator_index p.2).2 - 1).fdiv 2 + 1 ≤
            (((inferNorb ranks).toNat : ℤ)) := by
          have hmono : ((largest_operator_index p.2).2 - 1).fdiv 2 ≤
              (largest_operator_index p.2).2.fdiv 2 :=
            fdiv_two_mono (by omega)
          omega
        rw [← h2]
        exact fermionops_tomatrix_error_not_dim _ _ ha hb _ hfp
      · have := hamiltonian_from_mats_error _ _ _ _ _ he
        rw [this]
        rfl

/-- C10 (witness): `norb`-independence on the general path evaluated on a
concrete three-term Hermitian expression, with `norb` arguments 0 and 7. -/
theorem claim_C10_witness :
    is_hermitian ops3 = true ∧ 2 < ops3.length ∧
    build_hamiltonian id (.fermionOp ops3) 0 true czero =
      build_hamiltonian id (.fermionOp ops3) 7 true czero := by
  refine ⟨by with_unfolding_all decide, by decide, ?_⟩
  exact (claim_C10 id ops3 0 7 true czero
    (by with_unfolding_all decide) (by decide)).1

theorem violFrom_cons (f : FactorT) (rest : Term) (i half : ℕ) :
    violFrom (f :: rest) i half ↔
      ((i < half ∧ f.2 = false) ∨ (half ≤ i ∧ f.2 = true)) ∨
        violFrom rest (i + 1) half := by
  constructor
  · rintro ⟨j, hj⟩
    cases j using Fin.cases with
    | zero => left; simpa using hj
    | succ jj =>
      right
      refine ⟨jj, ?_⟩
      simp only [Fin.val_succ, List.get_cons_succ] at hj
      rw [show i + ((jj : ℕ) + 1) = (i + 1) + jj from by omega] at hj
      exact hj
  · rintro (h | ⟨j, hj⟩)
    · exact ⟨⟨0, by simp⟩, by simpa using h⟩
    · refine ⟨j.succ, ?_⟩
      simp only [Fin.val_succ, List.get_cons_succ]
      rw [show i + ((j : ℕ) + 1) = (i + 1) + j from by omega]
      exact hj

theorem violFrom_zero (t : Term) (half : ℕ) :
    violFrom t 0 half ↔ orderingViolation t half := by
  unfold violFrom orderingViolation
  constructor <;> rintro ⟨j, hj⟩ <;> exact ⟨j, by simpa using hj⟩

theorem term_index_mask_ok_iff (t : Term) : ∀ i half ablk,
    (∃ m, term_index_mask t i half ablk = .ok m) ↔ ¬ violFrom t i half := by
  induction t with
  | nil =>
    intro i half ablk
    constructor
    · rintro - ⟨j, -⟩
      exact absurd j.2 (by simp)
    · intro _
      exact ⟨[], rfl⟩
  | cons f rest ih =>
    intro i half ablk
    rw [violFrom_cons]
    unfold term_index_mask
    by_cases hi : i < half
    · rw [if_pos hi]
      cases hf : f.2 with
      | false =>
        simp only [Bool.not_false, if_true]
        constructor
        · rintro ⟨m, hm⟩
          simp at hm
        · intro hn
          exact absurd (Or.inl (Or.inl ⟨hi, by simp⟩)) hn
      | true =>
        simp only [Bool.not_true, Bool.false_eq_true, if_false]
        cases hrec : term_index_mask rest (i + 1) half ablk with
        | error e2 =>
          constructor
          · rintro ⟨m, hm⟩
            simp at hm
          · intro hn
            exfalso
            have hv : violFrom rest (i + 1) half := by
              by_contra hnv
              obtain ⟨m, hm⟩ := (ih (i + 1) half ablk).mpr hnv
              rw [hrec] at hm
              simp at hm
            exact hn (Or.inr hv)
        | ok m =>
          have hnv : ¬ violFrom rest (i + 1) half :=
            (ih (i + 1) half ablk).mp ⟨m, hrec⟩
          constructor
          · rintro - (hhead | hv)
            · rcases hhead with ⟨-, hf2⟩ | ⟨hle, -⟩
              · exact absurd hf2 (by simp)
              · omega
            · exact hnv hv
          · intro _
            exact ⟨blocked_index f.1 ablk :: m, rfl⟩
    · rw [if_neg hi]
      cases hf : f.2 with
      | true =>
        simp only [if_true]
        constructor
        · rintro ⟨m, hm⟩
          simp at hm
        · intro hn
          exact absurd (Or.inl (Or.inr ⟨by omega, by simp⟩)) hn
      | false =>
        simp only [Bool.false_eq_true, if_false]
        cases hrec : term_index_mask rest (i + 1) half ablk with
        | error e2 =>
          constructor
          · rintro ⟨m, hm⟩
            simp at hm
          · intro hn
            exfalso
            have hv : violFrom rest (i + 1) half := by
              by_contra hnv
              obtain ⟨m, hm⟩ := (ih (i + 1) half ablk).mpr hnv
              rw [hrec] at hm
              simp at hm
            exact hn (Or.inr hv)
        | ok m =>
          have hnv : ¬ violFrom rest (i + 1) half :=
            (ih (i + 1) half ablk).mp ⟨m, hrec⟩
          constructor
          · rintro - (hhead | hv)
            · rcases hhead with ⟨hlt, -⟩ | ⟨-, hf2⟩
              · omega
              · exact hf2.elim
            · exact hnv hv
          · intro _
            exact ⟨blocked_index f.1 ablk :: m, rfl⟩

theorem tomatrixGo_ok_iff (l : FOp) : ∀ half ablk tensor,
    (∃ T, tomatrixGo l half ablk tensor = .ok T) ↔
      ∀ p ∈ l, ¬ violFrom p.1 0 half := by
  induction l with
  | nil =>
    intro half ablk tensor
    constructor
    · intro _ p hp
      simp at hp
    · intro _
      exact ⟨tensor, rfl⟩
  | cons q rest ih =>
    intro half ablk tensor
    obtain ⟨t, c⟩ := q
    unfold tomatrixGo
    cases hmask : term_index_mask t 0 half ablk with
    | error e =>
      constructor
      · rintro ⟨T, hT⟩
        simp at hT
      · intro hall
        exfalso
        obtain ⟨m, hm⟩ := (term_index_mask_ok_iff t 0 half ablk).mpr
          (hall (t, c) (List.mem_cons_self _ _))
        rw [hmask] at hm
        simp at hm
    | ok mask =>
      constructor
      · rintro ⟨T, hT⟩ p hp
        rcases List.mem_cons.mp hp with hq | hq
        · rw [hq]
          exact (term_index_mask_ok_iff t 0 half ablk).mp ⟨mask, hmask⟩
        · exact ((ih half ablk (tupdate tensor mask c)).mp ⟨T, hT⟩) p hq
      · intro hall
        exact (ih half ablk (tupdate tensor mask c)).mpr
          (fun p hp => hall p (List.mem_cons_of_mem _ hp))

/-- C7 (confirmed).  For a single-rank sub-expression (all terms have
exactly `many_body_order ops` factors, the rank is even, and the block
dimension determination succeeds), the tensor builder raises one of the two
`OrderingError`s exactly when some term has a non-creation factor among its
first `rank/2` positions or a creation factor among the remaining positions;
when every term is canonically ordered, no error is raised and a tensor is
returned. -/
theorem claim_C7 (ops : FOp) (norb : ℕ)
    (hlen : ∀ p ∈ ops, p.1.length = many_body_order ops)
    (heven : many_body_order ops % 2 = 0)
    (hdim : norb = 0 ∨
      ((largest_operator_index ops).1.fdiv 2 + 1 ≤ (norb : ℤ) ∧
       ((largest_operator_index ops).2 - 1).fdiv 2 + 1 ≤ (norb : ℤ))) :
    ((∃ p ∈ ops, orderingViolation p.1 (many_body_order ops / 2)) ↔
      ∃ e, fermionops_tomatrix ops norb = .error e ∧ e.isOrdering = true) ∧
    ((¬ ∃ p ∈ ops, orderingViolation p.1 (many_body_order ops / 2)) →
      ∃ t, fermionops_tomatrix ops norb = .ok t) := by
  have hd : ∃ d, tomatrix_dim ops norb = .ok d := by
    rcases hdim with h0 | ⟨ha, hb⟩
    · rw [h0]
      simp only [tomatrix_dim]
      rw [if_neg (by omega)]
      exact ⟨_, rfl⟩
    · exact tomatrix_dim_ok ops norb ha hb
  obtain ⟨d, hd⟩ := hd
  have heq := fermionops_tomatrix_dim_eq ops norb d hd
  rw [if_neg (by omega)] at heq
  have hgo := tomatrixGo_ok_iff ops (many_body_order ops / 2) (d / 2)
    zeroTensor
  simp only [violFrom_zero] at hgo
  constructor
  · constructor
    · intro hviol
      cases hres : tomatrixGo ops (many_body_order ops / 2) (d / 2)
          zeroTensor with
      | ok T =>
        exfalso
        obtain ⟨p, hp, hv⟩ := hviol
        exact (hgo.mp ⟨T, hres⟩) p hp hv
      | error e2 =>
        exact ⟨e2, by rw [heq, hres], tomatrixGo_error _ _ _ _ _ hres⟩
    · rintro ⟨e2, he2, -⟩
      by_contra hnv
      push_neg at hnv
      obtain ⟨T, hT⟩ := hgo.mpr hnv
      rw [heq, hT] at he2
      simp at he2
  · intro hnv
    push_neg at hnv
    obtain ⟨T, hT⟩ := hgo.mpr hnv
    exact ⟨T, by rw [heq, hT]⟩

/-- C7 (witness): the no-violation branch of the theorem evaluated on a
concrete canonically ordered single-rank expression. -/
theorem claim_C7_witness :
    (¬ ∃ p ∈ opsW, orderingViolation p.1 (many_body_order opsW / 2)) ∧
    ∃ t, fermionops_tomatrix opsW 0 = .ok t := by
  refine ⟨by decide, ?_⟩
  exact (claim_C7 opsW 0 (by decide) (by decide) (Or.inl rfl)).2 (by decide)

end Fqe
